import Mathlib

/-!
Verification of the pattern-substitution codec layer
(`src/extreme_engine.py`): the global pattern registry, the Layer 8
mapper (compress/decompress), and the pipeline composer.

Bytes are modelled as `List Nat`; Python dicts are modelled as
association lists kept in insertion order (which is what Python 3.7+
dicts guarantee and what both the serializer and the compressor's
stable sort observe).  The `engine` module (variable-length integer
codec, metadata record, inner pipeline) is not part of the sources and
is modelled from the spec where needed.  The cryptographic digest
(hashlib.sha256) is an external library routine and enters as an
explicit function parameter `H`.
-/

/-- Modelled from the spec: the variable-length unsigned-integer codec
`engine.VarIntCodec` (not included in the sources).  `encode` emits the
value in 7-bit groups, least significant first, setting the high
(continuation) bit on every byte except the last — a self-terminating,
most-significant-bit-per-byte continuation scheme.  The first argument
is recursion fuel; `n` itself is always sufficient. -/
def VarIntCodec.encodeAux : Nat → Nat → List Nat
  | 0, n => [n % 128]
  | fuel + 1, n => if n < 128 then [n] else (128 + n % 128) :: VarIntCodec.encodeAux fuel (n / 128)

/-- Modelled from the spec: `VarIntCodec.encode(uint) -> bytes`. -/
def VarIntCodec.encode (n : Nat) : List Nat :=
  VarIntCodec.encodeAux n n

/-- Modelled from the spec: `VarIntCodec.decode(bytes, offset) -> (uint,
bytes_consumed)`, applied here to the suffix of the stream starting at
the offset.  Returns `none` when the buffer ends before a terminating
byte (no continuation bit unset) — the `MalformedStream` condition. -/
def VarIntCodec.decode : List Nat → Option (Nat × Nat)
  | [] => none
  | b :: rest =>
    if b < 128 then some (b, 1)
    else
      match VarIntCodec.decode rest with
      | some (v, c) => some (b % 128 + 128 * v, c + 1)
      | none => none

/-- Association-list model of a Python dict assignment `d[k] = v`: an
existing key is updated in place (keeping its position, as Python 3.7+
dicts do); a fresh key is appended at the end. -/
def dictInsert [BEq α] (k : α) (v : β) : List (α × β) → List (α × β)
  | [] => [(k, v)]
  | kv :: rest => if kv.1 == k then (k, v) :: rest else kv :: dictInsert k v rest

/-- `GlobalPatternRegistry` (src/extreme_engine.py lines 53-112): two
insertion-ordered maps and the next-identifier counter. -/
structure GlobalPatternRegistry where
  pattern_to_id : List (List Nat × Nat)
  id_to_pattern : List (Nat × List Nat)
  next_id : Nat
deriving DecidableEq

/-- The state produced by `GlobalPatternRegistry.__init__`. -/
def emptyRegistry : GlobalPatternRegistry :=
  { pattern_to_id := [], id_to_pattern := [], next_id := 0 }

/-- `GlobalPatternRegistry.register` (lines 66-79): return the existing
identifier, or allocate `next_id`, record both directions, and bump the
counter. -/
def GlobalPatternRegistry.register (r : GlobalPatternRegistry) (pattern : List Nat) :
    Nat × GlobalPatternRegistry :=
  match r.pattern_to_id.lookup pattern with
  | some pid => (pid, r)
  | none =>
    (r.next_id,
      { pattern_to_id := dictInsert pattern r.next_id r.pattern_to_id
        id_to_pattern := dictInsert r.next_id pattern r.id_to_pattern
        next_id := r.next_id + 1 })

/-- `GlobalPatternRegistry.lookup` (lines 81-83); Python's `KeyError`
for an unknown identifier becomes `none`. -/
def GlobalPatternRegistry.lookup (r : GlobalPatternRegistry) (pid : Nat) : Option (List Nat) :=
  r.id_to_pattern.lookup pid

/-- A registry obtained from a fresh one by a sequence of `register`
calls (the training phase). -/
def buildRegistry (ps : List (List Nat)) : GlobalPatternRegistry :=
  ps.foldl (fun r p => (r.register p).2) emptyRegistry

/-- Big-endian 4-byte encoding, modelling `struct.pack(">I", n)` for
`n < 2^32` (the only range the registry format can represent; `struct`
raises on larger values, which the serialization theorems exclude by
hypothesis). -/
def pack32 (n : Nat) : List Nat :=
  [n / 2 ^ 24 % 256, n / 2 ^ 16 % 256, n / 2 ^ 8 % 256, n % 256]

/-- Big-endian multi-byte decoding, modelling `struct.unpack(">I", b)`
on a 4-byte buffer. -/
def unpack32 (b : List Nat) : Nat :=
  b.foldl (fun acc x => acc * 256 + x) 0

/-- `GlobalPatternRegistry.serialize` (lines 85-97): a 4-byte entry
count followed by, for each `id_to_pattern` entry in insertion order, a
4-byte identifier, a 4-byte pattern length, and the pattern bytes. -/
def GlobalPatternRegistry.serialize (r : GlobalPatternRegistry) : List Nat :=
  pack32 r.id_to_pattern.length ++
    (r.id_to_pattern.map (fun e => pack32 e.1 ++ pack32 e.2.length ++ e.2)).flatten

/-- The error conditions `deserialize` can surface: `struct.error` from
unpacking a short fixed-size field (the spec calls this
`MalformedRegistry`). -/
inductive RegistryError
  | structError
deriving DecidableEq

/-- The per-record loop of `GlobalPatternRegistry.deserialize` (lines
106-112).  `BytesIO.read(n)` returns up to `n` bytes (modelled by
`take`/`drop`); `struct.unpack` fails unless it gets exactly 4 bytes,
but the pattern body read is NOT length-checked: a short read is stored
as-is.  On `struct.error` the Python object keeps any records merged by
earlier iterations; no claim concerns that partial state, and the model
returns only the error. -/
def deserializeLoop : Nat → GlobalPatternRegistry → List Nat →
    Except RegistryError GlobalPatternRegistry
  | 0, r, _ => .ok r
  | c + 1, r, buf =>
    let pidB := buf.take 4
    if pidB.length ≠ 4 then .error .structError
    else
      let buf1 := buf.drop 4
      let lenB := buf1.take 4
      if lenB.length ≠ 4 then .error .structError
      else
        let buf2 := buf1.drop 4
        let pid := unpack32 pidB
        let len := unpack32 lenB
        let pat := buf2.take len
        deserializeLoop c
          { pattern_to_id := dictInsert pat pid r.pattern_to_id
            id_to_pattern := dictInsert pid pat r.id_to_pattern
            next_id := max r.next_id (pid + 1) }
          (buf2.drop len)

/-- `GlobalPatternRegistry.deserialize` (lines 99-112): an empty input
returns silently; a 1-3 byte count field fails in `struct.unpack`;
otherwise the declared number of records is merged. -/
def GlobalPatternRegistry.deserialize (r : GlobalPatternRegistry) (data : List Nat) :
    Except RegistryError GlobalPatternRegistry :=
  let countB := data.take 4
  if countB = [] then .ok r
  else if countB.length ≠ 4 then .error .structError
  else deserializeLoop (unpack32 countB) r (data.drop 4)

/-- Modelled from the spec: the compression-stage identifiers
(`engine.CompressionLayer`, not included in the sources).  Only the
Layer 8 tag is referenced by this core; the inner pipeline's stages are
represented opaquely. -/
inductive CompressionLayer
  | L8_ULTRA_EXTREME_MAPPING
  | other (tag : Nat)
deriving DecidableEq

/-- Modelled from the spec: the block metadata record
(`engine.CompressionMetadata`, not included in the sources): sizes, the
derived ratio, the ordered stage list, the digest of the original
bytes, and auxiliary fields that default when not supplied.  A missing
integrity hash is the empty byte string (Python's falsy values `None`
and `b""` both skip the check in `decompress`). -/
structure CompressionMetadata where
  block_id : Nat
  original_size : Nat
  compressed_size : Nat
  compression_ratio : ℚ
  layers_applied : List CompressionLayer
  integrity_hash : List Nat
  dictionary_versions : List (Nat × Nat) := []
  timestamp : Nat := 0
  entropy_score : ℚ := 0
deriving DecidableEq

/-- `ESCAPE_BYTE = 0xFE` (line 119), the reserved pattern-pointer
marker. -/
def ESCAPE_BYTE : Nat := 0xFE

/-- The `sorted(..., key=lambda kv: -len(kv[0]))` call of `compress`
(lines 138-139): a stable sort of the `pattern_to_id` entries by
descending pattern length, modelled by stable insertion:
`insertByLen` places the new entry after every strictly longer one and
before equal-length ones seen later. -/
def insertByLen (p : List Nat × Nat) : List (List Nat × Nat) → List (List Nat × Nat)
  | [] => [p]
  | q :: qs => if p.1.length < q.1.length then q :: insertByLen p qs else p :: q :: qs

/-- Stable descending-length sort of the registry entries. -/
def sortPatternsDesc : List (List Nat × Nat) → List (List Nat × Nat)
  | [] => []
  | p :: ps => insertByLen p (sortPatternsDesc ps)

/-- One scan position of `compress` (lines 143-150): the first entry of
the sorted candidate list whose pattern occurs at the current position
(`data.startswith(pattern, i)`). -/
def compressStep (cands : List (List Nat × Nat)) (rem : List Nat) : Option (List Nat × Nat) :=
  cands.find? (fun kv => kv.1.isPrefixOf rem)

/-- The `while i < len(data)` loop of `compress` (lines 141-153).  The
fuel counts loop iterations; each iteration either rewrites a match to
the escape byte plus the varint identifier (advancing by the pattern
length) or emits the current byte verbatim.  `none` means the loop ran
longer than the given fuel — with a registered empty pattern it runs
forever (the match advances the position by zero), so no fuel ever
suffices. -/
def compressLoop (cands : List (List Nat × Nat)) : Nat → List Nat → Option (List Nat)
  | _, [] => some []
  | 0, _ :: _ => none
  | fuel + 1, b :: rest =>
    match compressStep cands (b :: rest) with
    | some (pat, pid) =>
      (fun out => (ESCAPE_BYTE :: VarIntCodec.encode pid) ++ out) <$>
        compressLoop cands fuel ((b :: rest).drop pat.length)
    | none => (fun out => b :: out) <$> compressLoop cands fuel rest

/-- `Layer8UltraExtremeMapper.compress` (lines 132-164).  `H` is the
digest function (`hashlib.sha256(...).digest()`); `fuel` bounds the
scan-loop iterations (any value at least `data.length` is enough
whenever every registered pattern is non-empty). -/
def Layer8UltraExtremeMapper.compress (H : List Nat → List Nat) (r : GlobalPatternRegistry)
    (fuel : Nat) (data : List Nat) : Option (List Nat × CompressionMetadata) :=
  (compressLoop (sortPatternsDesc r.pattern_to_id) fuel data).map (fun out =>
    (out,
      { block_id := 0
        original_size := data.length
        compressed_size := out.length
        compression_ratio :=
          if out.length > 0 then (data.length : ℚ) / (out.length : ℚ) else 1
        layers_applied := [CompressionLayer.L8_ULTRA_EXTREME_MAPPING]
        integrity_hash := H data }))

/-- The failure conditions of `decompress`: a truncated pointer
(`MalformedStream` per the spec), an unknown identifier (Python
`KeyError`, the spec's `NotFound`), and the `IntegrityError` raised on
digest mismatch (line 183). -/
inductive DecompressError
  | MalformedStream
  | NotFound
  | IntegrityError
deriving DecidableEq

/-- The `while i < len(data)` loop of `decompress` (lines 169-179).
The fuel counts loop iterations; every iteration consumes at least one
byte, so `data.length` iterations always suffice (the zero-fuel branch
on a non-empty remainder is unreachable from the wrapper below, see
`decompressLoop_fuel_irrelevant`). -/
def decompressLoop (r : GlobalPatternRegistry) : Nat → List Nat →
    Except DecompressError (List Nat)
  | _, [] => .ok []
  | 0, _ :: _ => .error .MalformedStream
  | fuel + 1, b :: rest =>
    if b = ESCAPE_BYTE then
      match VarIntCodec.decode rest with
      | none => .error .MalformedStream
      | some (pid, consumed) =>
        match r.lookup pid with
        | none => .error .NotFound
        | some pattern =>
          (fun out => pattern ++ out) <$> decompressLoop r fuel (rest.drop consumed)
    else
      (fun out => b :: out) <$> decompressLoop r fuel rest

/-- `Layer8UltraExtremeMapper.decompress` (lines 166-184): reconstruct,
then, when an integrity hash is present (truthy), compare the
recomputed digest and raise `IntegrityError` on mismatch. -/
def Layer8UltraExtremeMapper.decompress (H : List Nat → List Nat) (r : GlobalPatternRegistry)
    (data : List Nat) (metadata : CompressionMetadata) : Except DecompressError (List Nat) :=
  match decompressLoop r data.length data with
  | .error e => .error e
  | .ok result =>
    if metadata.integrity_hash ≠ [] then
      if H result ≠ metadata.integrity_hash then .error .IntegrityError
      else .ok result
    else .ok result

/-- `ExtremeCobolEngine.compress_block` (lines 209-225).  The inner
engine (`engine.CobolEngine`, not included in the sources) enters as
the abstract function `inner`, per the spec's external-pipeline
contract `compress_block(bytes) -> (bytes, Metadata)`. -/
def ExtremeCobolEngine.compress_block (H : List Nat → List Nat)
    (inner : List Nat → List Nat × CompressionMetadata)
    (r : GlobalPatternRegistry) (fuel : Nat) (data : List Nat) :
    Option (List Nat × CompressionMetadata) :=
  match Layer8UltraExtremeMapper.compress H r fuel data with
  | none => none
  | some (l8_out, l8_meta) =>
    let final_out := (inner l8_out).1
    let final_meta := (inner l8_out).2
    if final_out = l8_out then
      some (l8_out, { l8_meta with original_size := data.length, integrity_hash := H data })
    else
      some (final_out,
        { final_meta with
            layers_applied :=
              CompressionLayer.L8_ULTRA_EXTREME_MAPPING :: final_meta.layers_applied
            original_size := data.length
            integrity_hash := H data })

/-- A concrete stand-in digest used only to instantiate the abstract
hash parameter in closed witness statements; it separates the inputs
those statements need separated. -/
def testDigest (l : List Nat) : List Nat :=
  [l.length % 256, l.foldl (fun a b => (a + b) % 256) 0]

deriving instance DecidableEq for Except

/-- The number of distinct patterns held by a registry. -/
def GlobalPatternRegistry.count (r : GlobalPatternRegistry) : Nat :=
  r.pattern_to_id.length

/-- The canonical `pattern_to_id` association list of a registry whose
distinct patterns, in registration order, are `pats`, with identifiers
counted from `k`. -/
def canonPat (k : Nat) : List (List Nat) → List (List Nat × Nat)
  | [] => []
  | p :: ps => (p, k) :: canonPat (k + 1) ps

/-- The canonical `id_to_pattern` association list, mirror image of
`canonPat`. -/
def canonId (k : Nat) : List (List Nat) → List (Nat × List Nat)
  | [] => []
  | p :: ps => (k, p) :: canonId (k + 1) ps

/-- The shape every registry reachable from `emptyRegistry` by
`register` calls has: both maps list the same distinct patterns in
registration order with sequential identifiers, and the counter equals
the entry count. -/
def RegistryShape (r : GlobalPatternRegistry) (pats : List (List Nat)) : Prop :=
  r.pattern_to_id = canonPat 0 pats ∧ r.id_to_pattern = canonId 0 pats ∧
    r.next_id = pats.length ∧ pats.Nodup

/-- The state change one `deserialize` record `(identifier, pattern)`
performs (lines 110-112). -/
def mergeEntry (r : GlobalPatternRegistry) (e : Nat × List Nat) : GlobalPatternRegistry :=
  { pattern_to_id := dictInsert e.2 e.1 r.pattern_to_id
    id_to_pattern := dictInsert e.1 e.2 r.id_to_pattern
    next_id := max r.next_id (e.1 + 1) }

/-- The byte image of one registry record in the snapshot format. -/
def recordBytes (e : Nat × List Nat) : List Nat :=
  pack32 e.1 ++ pack32 e.2.length ++ e.2

/-- The longest varint encoding of any identifier in a candidate list;
each rewritten occurrence costs at most one marker byte plus this many
identifier bytes. -/
def maxPointerLen (l : List (List Nat × Nat)) : Nat :=
  l.foldr (fun kv acc => max (VarIntCodec.encode kv.2).length acc) 0

/-- The metadata produced by compressing the one-byte input `[0xFE]`
against an empty registry with the stand-in digest. -/
def c1Meta : CompressionMetadata :=
  { block_id := 0
    original_size := 1
    compressed_size := 1
    compression_ratio := 1
    layers_applied := [CompressionLayer.L8_ULTRA_EXTREME_MAPPING]
    integrity_hash := testDigest [ESCAPE_BYTE] }

/-- The metadata produced by compressing `[0xFE, 0x07]` against an
empty registry with the stand-in digest. -/
def c2Meta : CompressionMetadata :=
  { block_id := 0
    original_size := 2
    compressed_size := 2
    compression_ratio := 1
    layers_applied := [CompressionLayer.L8_ULTRA_EXTREME_MAPPING]
    integrity_hash := testDigest [ESCAPE_BYTE, 7] }

/-- A metadata record carrying an integrity hash that matches no
stand-in digest, for exercising the verification gate. -/
def c4Meta : CompressionMetadata :=
  { block_id := 0
    original_size := 1
    compressed_size := 1
    compression_ratio := 1
    layers_applied := []
    integrity_hash := [9, 9] }

/-- An inner pipeline that returns its input unchanged, with its own
metadata record. -/
def c9InnerW : List Nat → List Nat × CompressionMetadata := fun b =>
  (b,
    { block_id := 7
      original_size := 0
      compressed_size := 0
      compression_ratio := 1
      layers_applied := [CompressionLayer.other 3]
      integrity_hash := [] })

/-- The Layer 8 metadata for compressing `[3]` against an empty
registry with the stand-in digest. -/
def c9MetaW : CompressionMetadata :=
  { block_id := 0
    original_size := 1
    compressed_size := 1
    compression_ratio := 1
    layers_applied := [CompressionLayer.L8_ULTRA_EXTREME_MAPPING]
    integrity_hash := testDigest [3] }

theorem VarIntCodec.decode_encodeAux (fuel n : Nat) (rest : List Nat) (h : n ≤ fuel) :
    VarIntCodec.decode (VarIntCodec.encodeAux fuel n ++ rest) =
      some (n, (VarIntCodec.encodeAux fuel n).length) := by
  induction fuel generalizing n with
  | zero =>
    have hn : n = 0 := Nat.le_zero.mp h
    subst hn
    simp [VarIntCodec.encodeAux, VarIntCodec.decode]
  | succ f ih =>
    by_cases hlt : n < 128
    · simp [VarIntCodec.encodeAux, hlt, VarIntCodec.decode]
    · have hdiv : n / 128 ≤ f := by
        have h1 : n / 128 < n := Nat.div_lt_self (by omega) (by omega)
        omega
      have := ih (n / 128) hdiv
      simp only [VarIntCodec.encodeAux, hlt, if_false, List.cons_append, VarIntCodec.decode]
      have hge : ¬ (128 + n % 128 < 128) := by omega
      simp only [hge, if_false, this]
      have hmod : (128 + n % 128) % 128 = n % 128 := by omega
      have hval : (128 + n % 128) % 128 + 128 * (n / 128) = n := by
        rw [hmod]
        have := Nat.mod_add_div n 128
        omega
      rw [hmod] at hval
      simp [hval, List.length_cons]

theorem VarIntCodec.decode_encode (n : Nat) (rest : List Nat) :
    VarIntCodec.decode (VarIntCodec.encode n ++ rest) =
      some (n, (VarIntCodec.encode n).length) :=
  VarIntCodec.decode_encodeAux n n rest (Nat.le_refl n)

theorem VarIntCodec.encodeAux_length_pos (fuel n : Nat) :
    0 < (VarIntCodec.encodeAux fuel n).length := by
  cases fuel with
  | zero => simp [VarIntCodec.encodeAux]
  | succ f =>
    by_cases hlt : n < 128 <;> simp [VarIntCodec.encodeAux, hlt]

theorem VarIntCodec.decode_consumed_pos (l : List Nat) (v c : Nat)
    (h : VarIntCodec.decode l = some (v, c)) : 0 < c := by
  cases l with
  | nil => simp [VarIntCodec.decode] at h
  | cons b rest =>
    simp only [VarIntCodec.decode] at h
    by_cases hlt : b < 128
    · simp [hlt] at h
      omega
    · simp only [hlt, if_false] at h
      cases hrec : VarIntCodec.decode rest with
      | none => rw [hrec] at h; simp at h
      | some vc => rw [hrec] at h; simp at h; omega

theorem lookup_append_of_some [BEq α] {k : α} {v : β} {d1 d2 : List (α × β)}
    (h : d1.lookup k = some v) : (d1 ++ d2).lookup k = some v := by
  induction d1 with
  | nil => simp [List.lookup] at h
  | cons kv rest ih =>
    obtain ⟨k1, v1⟩ := kv
    cases hk : (k == k1) <;> simp only [List.cons_append, List.lookup, hk] at h ⊢
    · exact ih h
    · exact h

theorem lookup_append_of_none [BEq α] {k : α} {d1 d2 : List (α × β)}
    (h : d1.lookup k = none) : (d1 ++ d2).lookup k = d2.lookup k := by
  induction d1 with
  | nil => simp
  | cons kv rest ih =>
    obtain ⟨k1, v1⟩ := kv
    cases hk : (k == k1) <;> simp only [List.cons_append, List.lookup, hk] at h ⊢
    · exact ih h
    · exact absurd h (by simp)

theorem lookup_mem [BEq α] [LawfulBEq α] {k : α} {v : β} {d : List (α × β)}
    (h : d.lookup k = some v) : (k, v) ∈ d := by
  induction d with
  | nil => simp [List.lookup] at h
  | cons kv rest ih =>
    obtain ⟨k1, v1⟩ := kv
    cases hk : (k == k1) <;> simp only [List.lookup, hk] at h
    · exact List.mem_cons_of_mem _ (ih h)
    · obtain rfl : k = k1 := by simpa using hk
      obtain rfl : v1 = v := by simpa using h
      exact List.mem_cons_self _ _

theorem lookup_none_iff [BEq α] [LawfulBEq α] {k : α} {d : List (α × β)} :
    d.lookup k = none ↔ ∀ kv ∈ d, kv.1 ≠ k := by
  induction d with
  | nil => simp [List.lookup]
  | cons kv rest ih =>
    obtain ⟨k1, v1⟩ := kv
    cases hk : (k == k1)
    · have hne : k1 ≠ k := by
        intro hh
        subst hh
        simp at hk
      simp only [List.lookup, hk, List.mem_cons]
      constructor
      · intro h p hp
        rcases hp with rfl | hp
        · exact hne
        · exact ih.mp h p hp
      · intro h
        exact ih.mpr (fun p hp => h p (Or.inr hp))
    · obtain rfl : k = k1 := by simpa using hk
      simp [List.lookup, hk]

theorem dictInsert_fresh [BEq α] [LawfulBEq α] {k : α} {v : β} {d : List (α × β)}
    (h : ∀ kv ∈ d, kv.1 ≠ k) : dictInsert k v d = d ++ [(k, v)] := by
  induction d with
  | nil => simp [dictInsert]
  | cons kv rest ih =>
    have hk : (kv.1 == k) = false := by
      have := h kv (List.mem_cons_self _ _)
      simpa using this
    simp only [dictInsert, hk, Bool.false_eq_true, if_false, List.cons_append, List.cons.injEq]
    exact ⟨trivial, ih (fun p hp => h p (List.mem_cons_of_mem _ hp))⟩

theorem lookup_dictInsert_self [BEq α] [LawfulBEq α] (k : α) (v : β) (d : List (α × β)) :
    (dictInsert k v d).lookup k = some v := by
  induction d with
  | nil => simp [dictInsert, List.lookup]
  | cons kv rest ih =>
    obtain ⟨k1, v1⟩ := kv
    by_cases hk : k1 = k
    · subst hk
      simp [dictInsert, List.lookup]
    · have hk1 : (k1 == k) = false := by simpa using hk
      have hk2 : (k == k1) = false := by
        simp only [beq_eq_false_iff_ne, ne_eq]
        exact fun hh => hk hh.symm
      simp only [dictInsert, hk1, Bool.false_eq_true, if_false, List.lookup, hk2]
      exact ih

theorem canonPat_append (l : List (List Nat)) (p : List Nat) : ∀ k,
    canonPat k (l ++ [p]) = canonPat k l ++ [(p, k + l.length)] := by
  induction l with
  | nil => intro k; simp [canonPat]
  | cons q qs ih =>
    intro k
    simp only [List.cons_append, canonPat, List.length_cons]
    rw [show qs.append [p] = qs ++ [p] from rfl, ih (k + 1),
      show k + 1 + qs.length = k + (qs.length + 1) from by omega]

theorem canonId_append (l : List (List Nat)) (p : List Nat) : ∀ k,
    canonId k (l ++ [p]) = canonId k l ++ [(k + l.length, p)] := by
  induction l with
  | nil => intro k; simp [canonId]
  | cons q qs ih =>
    intro k
    simp only [List.cons_append, canonId, List.length_cons]
    rw [show qs.append [p] = qs ++ [p] from rfl, ih (k + 1),
      show k + 1 + qs.length = k + (qs.length + 1) from by omega]

theorem mem_canonPat {kv : List Nat × Nat} {pats : List (List Nat)} : ∀ {k : Nat},
    kv ∈ canonPat k pats → kv.1 ∈ pats ∧ k ≤ kv.2 ∧ kv.2 < k + pats.length := by
  induction pats with
  | nil => intro k h; simp [canonPat] at h
  | cons q qs ih =>
    intro k h
    simp only [canonPat, List.mem_cons] at h
    rcases h with rfl | h
    · simp
    · have := ih h
      simp only [List.mem_cons, List.length_cons]
      exact ⟨Or.inr this.1, by omega, by omega⟩

theorem mem_canonId {kv : Nat × List Nat} {pats : List (List Nat)} : ∀ {k : Nat},
    kv ∈ canonId k pats → kv.2 ∈ pats ∧ k ≤ kv.1 ∧ kv.1 < k + pats.length := by
  induction pats with
  | nil => intro k h; simp [canonId] at h
  | cons q qs ih =>
    intro k h
    simp only [canonId, List.mem_cons] at h
    rcases h with rfl | h
    · simp
    · have := ih h
      simp only [List.mem_cons, List.length_cons]
      exact ⟨Or.inr this.1, by omega, by omega⟩

theorem canonPat_mem_of_mem {p : List Nat} {pats : List (List Nat)} (h : p ∈ pats) :
    ∀ k, ∃ i, (p, i) ∈ canonPat k pats := by
  induction pats with
  | nil => simp at h
  | cons q qs ih =>
    intro k
    rcases List.mem_cons.mp h with rfl | h
    · exact ⟨k, List.mem_cons_self _ _⟩
    · obtain ⟨i, hi⟩ := ih h (k + 1)
      exact ⟨i, List.mem_cons_of_mem _ hi⟩

theorem canonPat_lookup_none_iff {p : List Nat} {pats : List (List Nat)} {k : Nat} :
    (canonPat k pats).lookup p = none ↔ p ∉ pats := by
  rw [lookup_none_iff]
  constructor
  · intro h hp
    obtain ⟨i, hi⟩ := canonPat_mem_of_mem hp k
    exact h (p, i) hi rfl
  · intro hp kv hkv
    intro hh
    exact hp (hh ▸ (mem_canonPat hkv).1)

theorem canonId_lookup_of_mem {p : List Nat} {i : Nat} {pats : List (List Nat)} : ∀ {k : Nat},
    (p, i) ∈ canonPat k pats → (canonId k pats).lookup i = some p := by
  induction pats with
  | nil => intro k h; simp [canonPat] at h
  | cons q qs ih =>
    intro k h
    simp only [canonPat, List.mem_cons, Prod.mk.injEq] at h
    rcases h with ⟨rfl, rfl⟩ | h
    · simp [canonId, List.lookup]
    · have hge : k + 1 ≤ i := (mem_canonPat h).2.1
      have hne : (i == k) = false := by
        simp only [beq_eq_false_iff_ne, ne_eq]
        omega
      simp only [canonId, List.lookup, hne]
      exact ih h

theorem registryShape_empty : RegistryShape emptyRegistry [] := by
  refine ⟨rfl, rfl, rfl, List.nodup_nil⟩

theorem register_shape_known {r : GlobalPatternRegistry}
    {p : List Nat} {pid : Nat} (h : r.pattern_to_id.lookup p = some pid) :
    r.register p = (pid, r) := by
  simp [GlobalPatternRegistry.register, h]

theorem register_shape_new {r : GlobalPatternRegistry} {pats : List (List Nat)} {p : List Nat}
    (hs : RegistryShape r pats) (hnone : r.pattern_to_id.lookup p = none) :
    (r.register p).1 = pats.length ∧ RegistryShape (r.register p).2 (pats ++ [p]) := by
  obtain ⟨hp, hi, hn, hnd⟩ := hs
  have hfreshP : ∀ kv ∈ r.pattern_to_id, kv.1 ≠ p := lookup_none_iff.mp hnone
  have hfreshI : ∀ kv ∈ r.id_to_pattern, kv.1 ≠ r.next_id := by
    intro kv hkv
    rw [hi] at hkv
    have := (mem_canonId hkv).2.2
    omega
  have hnotmem : p ∉ pats := by
    rw [hp] at hnone
    exact canonPat_lookup_none_iff.mp hnone
  simp only [GlobalPatternRegistry.register, hnone]
  refine ⟨hn, ?_, ?_, ?_, ?_⟩
  · rw [dictInsert_fresh hfreshP, hp, hn, canonPat_append]
    simp
  · rw [dictInsert_fresh hfreshI, hi, hn, canonId_append]
    simp
  · simp [hn]
  · exact List.Nodup.append hnd (List.nodup_singleton p)
      (by simpa [List.disjoint_singleton] using hnotmem)

theorem foldl_register_shape (ps : List (List Nat)) :
    ∀ (r : GlobalPatternRegistry) (pats : List (List Nat)), RegistryShape r pats →
      ∃ pats2, RegistryShape (ps.foldl (fun r p => (r.register p).2) r) pats2 ∧
        ∀ p ∈ pats2, p ∈ pats ∨ p ∈ ps := by
  induction ps with
  | nil =>
    intro r pats hs
    exact ⟨pats, hs, fun p hp => Or.inl hp⟩
  | cons q qs ih =>
    intro r pats hs
    simp only [List.foldl_cons]
    cases hl : r.pattern_to_id.lookup q with
    | some pid =>
      have hr : (r.register q).2 = r := by rw [register_shape_known hl]
      rw [hr]
      obtain ⟨pats2, hs2, hm⟩ := ih r pats hs
      exact ⟨pats2, hs2, fun p hp => (hm p hp).imp id (List.mem_cons_of_mem q)⟩
    | none =>
      have := (register_shape_new hs hl).2
      obtain ⟨pats2, hs2, hm⟩ := ih _ _ this
      refine ⟨pats2, hs2, fun p hp => ?_⟩
      rcases hm p hp with h | h
      · rcases List.mem_append.mp h with h | h
        · exact Or.inl h
        · simp only [List.mem_singleton] at h
          exact Or.inr (h ▸ List.mem_cons_self q qs)
      · exact Or.inr (List.mem_cons_of_mem q h)

theorem buildRegistry_shape (ps : List (List Nat)) :
    ∃ pats, RegistryShape (buildRegistry ps) pats ∧ ∀ p ∈ pats, p ∈ ps := by
  obtain ⟨pats2, hs, hm⟩ := foldl_register_shape ps emptyRegistry [] registryShape_empty
  exact ⟨pats2, hs, fun p hp => (hm p hp).resolve_left (by simp)⟩

theorem pack32_length (n : Nat) : (pack32 n).length = 4 := rfl

theorem unpack32_pack32 {n : Nat} (h : n < 2 ^ 32) : unpack32 (pack32 n) = n := by
  simp only [unpack32, pack32, List.foldl]
  norm_num
  omega

theorem deserializeLoop_record (c : Nat) (r : GlobalPatternRegistry) (i : Nat)
    (pat rest : List Nat) (hi : i < 2 ^ 32) (hl : pat.length < 2 ^ 32) :
    deserializeLoop (c + 1) r (pack32 i ++ pack32 pat.length ++ pat ++ rest) =
      deserializeLoop c (mergeEntry r (i, pat)) rest := by
  have hassoc : pack32 i ++ pack32 pat.length ++ pat ++ rest =
      pack32 i ++ (pack32 pat.length ++ (pat ++ rest)) := by
    simp [List.append_assoc]
  rw [hassoc]
  simp only [deserializeLoop, List.take_left' (pack32_length i),
    List.drop_left' (pack32_length i), pack32_length, ne_eq, not_true_eq_false, if_false,
    List.take_left' (pack32_length pat.length), List.drop_left' (pack32_length pat.length),
    unpack32_pack32 hi, unpack32_pack32 hl, List.take_left' rfl, List.drop_left' rfl,
    mergeEntry]

theorem deserializeLoop_records (entries : List (Nat × List Nat)) :
    ∀ (r : GlobalPatternRegistry),
      (∀ e ∈ entries, e.1 < 2 ^ 32 ∧ e.2.length < 2 ^ 32) →
      deserializeLoop entries.length r (entries.map recordBytes).flatten =
        .ok (entries.foldl mergeEntry r) := by
  induction entries with
  | nil => intro r _; simp [deserializeLoop]
  | cons e es ih =>
    intro r hb
    obtain ⟨hi, hl⟩ := hb e (List.mem_cons_self _ _)
    simp only [List.map_cons, List.flatten_cons, List.length_cons, recordBytes]
    rw [show pack32 e.1 ++ pack32 e.2.length ++ e.2 ++ (es.map recordBytes).flatten =
        pack32 e.1 ++ pack32 e.2.length ++ e.2 ++ (es.map recordBytes).flatten from rfl]
    rw [deserializeLoop_record es.length r e.1 e.2 (es.map recordBytes).flatten hi hl]
    rw [List.foldl_cons]
    exact ih (mergeEntry r (e.1, e.2)) (fun x hx => hb x (List.mem_cons_of_mem _ hx))

theorem foldl_mergeEntry_canon (pats : List (List Nat)) :
    ∀ (k : Nat) (acc : GlobalPatternRegistry),
      pats.Nodup →
      (∀ p ∈ pats, ∀ kv ∈ acc.pattern_to_id, kv.1 ≠ p) →
      (∀ kv ∈ acc.id_to_pattern, kv.1 < k) →
      acc.next_id = k →
      (canonId k pats).foldl mergeEntry acc =
        { pattern_to_id := acc.pattern_to_id ++ canonPat k pats
          id_to_pattern := acc.id_to_pattern ++ canonId k pats
          next_id := k + pats.length } := by
  induction pats with
  | nil =>
    intro k acc _ _ _ hn
    simp only [canonId, List.foldl_nil, canonPat, List.append_nil, List.length_nil, Nat.add_zero]
    cases acc
    simp only [GlobalPatternRegistry.mk.injEq]
    exact ⟨trivial, trivial, hn⟩
  | cons p ps ih =>
    intro k acc hnd hfp hfi hn
    have hfreshP : ∀ kv ∈ acc.pattern_to_id, kv.1 ≠ p :=
      hfp p (List.mem_cons_self _ _)
    have hfreshI : ∀ kv ∈ acc.id_to_pattern, kv.1 ≠ k := by
      intro kv hkv
      have := hfi kv hkv
      omega
    simp only [canonId, List.foldl_cons]
    have hmerge : mergeEntry acc (k, p) =
        { pattern_to_id := acc.pattern_to_id ++ [(p, k)]
          id_to_pattern := acc.id_to_pattern ++ [(k, p)]
          next_id := k + 1 } := by
      simp only [mergeEntry, dictInsert_fresh hfreshP, dictInsert_fresh hfreshI]
      have : max acc.next_id (k + 1) = k + 1 := by omega
      simp [this]
    rw [hmerge]
    rw [ih (k + 1)
      { pattern_to_id := acc.pattern_to_id ++ [(p, k)]
        id_to_pattern := acc.id_to_pattern ++ [(k, p)]
        next_id := k + 1 }
      (List.Nodup.of_cons hnd)
      (by
        intro q hq kv hkv
        rcases List.mem_append.mp hkv with hkv | hkv
        · exact hfp q (List.mem_cons_of_mem _ hq) kv hkv
        · simp only [List.mem_singleton] at hkv
          subst hkv
          intro hh
          have hpq : p = q := hh
          have hnps : p ∉ ps := (List.nodup_cons.mp hnd).1
          exact hnps (by rw [hpq]; exact hq))
      (by
        intro kv hkv
        rcases List.mem_append.mp hkv with hkv | hkv
        · have := hfi kv hkv
          omega
        · simp only [List.mem_singleton] at hkv
          subst hkv
          omega)
      rfl]
    simp only [GlobalPatternRegistry.mk.injEq, List.append_assoc, List.singleton_append,
      List.length_cons]
    refine ⟨by simp [canonPat], by simp [canonId], by omega⟩

theorem canonId_length_aux (pats : List (List Nat)) : ∀ k, (canonId k pats).length = pats.length := by
  induction pats with
  | nil => intro k; simp [canonId]
  | cons q qs ih => intro k; simp [canonId, ih (k + 1)]

theorem serialize_shape (r : GlobalPatternRegistry) (pats : List (List Nat))
    (hs : RegistryShape r pats) :
    r.serialize = pack32 pats.length ++ ((canonId 0 pats).map recordBytes).flatten := by
  obtain ⟨hp, hi, hn, hnd⟩ := hs
  simp only [GlobalPatternRegistry.serialize, hi, canonId_length_aux pats 0]
  rfl

theorem deserialize_serialize (r : GlobalPatternRegistry) (pats : List (List Nat))
    (hs : RegistryShape r pats) (hc : pats.length < 2 ^ 32)
    (hl : ∀ e ∈ r.id_to_pattern, e.2.length < 2 ^ 32) :
    GlobalPatternRegistry.deserialize emptyRegistry r.serialize = .ok r := by
  obtain ⟨hp, hi, hn, hnd⟩ := hs
  rw [serialize_shape r pats ⟨hp, hi, hn, hnd⟩]
  have htake : (pack32 pats.length ++ ((canonId 0 pats).map recordBytes).flatten).take 4 =
      pack32 pats.length := List.take_left' (pack32_length _)
  have hdrop : (pack32 pats.length ++ ((canonId 0 pats).map recordBytes).flatten).drop 4 =
      ((canonId 0 pats).map recordBytes).flatten := List.drop_left' (pack32_length _)
  have hne : pack32 pats.length ≠ [] := by simp [pack32]
  simp only [GlobalPatternRegistry.deserialize, htake, hdrop, hne, if_false,
    pack32_length, ne_eq, not_true_eq_false, unpack32_pack32 hc]
  rw [show pats.length = ((canonId 0 pats).map recordBytes).length by
    simp [canonId_length_aux pats 0]]
  rw [show ((canonId 0 pats).map recordBytes).length = (canonId 0 pats).length by simp]
  rw [deserializeLoop_records (canonId 0 pats) emptyRegistry (by
    intro e he
    have hmem := mem_canonId he
    constructor
    · omega
    · exact hl e (by rw [hi]; exact he))]
  rw [foldl_mergeEntry_canon pats 0 emptyRegistry hnd
    (by intro p hp2 kv hkv; simp [emptyRegistry] at hkv)
    (by intro kv hkv; simp [emptyRegistry] at hkv)
    rfl]
  cases r
  simp only [emptyRegistry, List.nil_append, Nat.zero_add, Except.ok.injEq,
    GlobalPatternRegistry.mk.injEq]
  simp only at hp hi hn
  exact ⟨hp.symm, hi.symm, hn.symm⟩

theorem le_maxPointerLen {kv : List Nat × Nat} {l : List (List Nat × Nat)} (h : kv ∈ l) :
    (VarIntCodec.encode kv.2).length ≤ maxPointerLen l := by
  induction l with
  | nil => simp at h
  | cons q qs ih =>
    rcases List.mem_cons.mp h with rfl | h
    · simp [maxPointerLen]
    · have := ih h
      simp only [maxPointerLen, List.foldr_cons]
      simp only [maxPointerLen] at this
      omega

theorem mem_insertByLen {x p : List Nat × Nat} {l : List (List Nat × Nat)} :
    x ∈ insertByLen p l ↔ x = p ∨ x ∈ l := by
  induction l with
  | nil => simp [insertByLen]
  | cons q qs ih =>
    by_cases h : p.1.length < q.1.length
    · simp only [insertByLen, h, if_true, List.mem_cons, ih]
      tauto
    · simp only [insertByLen, h, if_false, List.mem_cons]

theorem mem_sortPatternsDesc {x : List Nat × Nat} {l : List (List Nat × Nat)} :
    x ∈ sortPatternsDesc l ↔ x ∈ l := by
  induction l with
  | nil => simp [sortPatternsDesc]
  | cons q qs ih =>
    simp only [sortPatternsDesc, mem_insertByLen, List.mem_cons, ih]

theorem pairwise_insertByLen {p : List Nat × Nat} {l : List (List Nat × Nat)}
    (h : l.Pairwise (fun a b => b.1.length ≤ a.1.length)) :
    (insertByLen p l).Pairwise (fun a b => b.1.length ≤ a.1.length) := by
  induction l with
  | nil => simp [insertByLen]
  | cons q qs ih =>
    rcases List.pairwise_cons.mp h with ⟨hq, hqs⟩
    by_cases hlt : p.1.length < q.1.length
    · simp only [insertByLen, hlt, if_true]
      rw [List.pairwise_cons]
      refine ⟨?_, ih hqs⟩
      intro x hx
      rcases mem_insertByLen.mp hx with rfl | hx
      · omega
      · exact hq x hx
    · simp only [insertByLen, hlt, if_false]
      rw [List.pairwise_cons]
      refine ⟨?_, h⟩
      intro x hx
      rcases List.mem_cons.mp hx with rfl | hx
      · omega
      · have := hq x hx
        omega

theorem pairwise_sortPatternsDesc (l : List (List Nat × Nat)) :
    (sortPatternsDesc l).Pairwise (fun a b => b.1.length ≤ a.1.length) := by
  induction l with
  | nil => simp [sortPatternsDesc]
  | cons q qs ih => exact pairwise_insertByLen ih

theorem compressStep_spec {cands : List (List Nat × Nat)} {rem : List Nat}
    {pat : List Nat} {pid : Nat} (h : compressStep cands rem = some (pat, pid)) :
    (pat, pid) ∈ cands ∧ pat <+: rem := by
  have hmem := List.mem_of_find?_eq_some h
  have hpred := List.find?_some h
  simp only [List.isPrefixOf_iff_prefix] at hpred
  exact ⟨hmem, hpred⟩

theorem compressLoop_total_bound {cands : List (List Nat × Nat)}
    (hne : ∀ kv ∈ cands, kv.1 ≠ ([] : List Nat)) :
    ∀ (fuel : Nat) (data : List Nat), data.length ≤ fuel →
      ∃ out, compressLoop cands fuel data = some out ∧
        out.length ≤ (1 + maxPointerLen cands) * data.length := by
  intro fuel
  induction fuel with
  | zero =>
    intro data hlen
    have : data = [] := List.length_eq_zero.mp (Nat.le_zero.mp hlen)
    subst this
    exact ⟨[], rfl, by simp⟩
  | succ f ih =>
    intro data hlen
    cases data with
    | nil => exact ⟨[], rfl, by simp⟩
    | cons b rest =>
      cases hstep : compressStep cands (b :: rest) with
      | some pp =>
        obtain ⟨pat, pid⟩ := pp
        obtain ⟨hmem, hpre⟩ := compressStep_spec hstep
        have hplen : 0 < pat.length := by
          have := hne (pat, pid) hmem
          cases pat with
          | nil => simp at this
          | cons x xs => simp
        have hple : pat.length ≤ (b :: rest).length := hpre.length_le
        have hdlen : ((b :: rest).drop pat.length).length ≤ f := by
          simp only [List.length_drop, List.length_cons]
          simp only [List.length_cons] at hlen
          omega
        obtain ⟨out2, hout2, hbound2⟩ := ih ((b :: rest).drop pat.length) hdlen
        refine ⟨(ESCAPE_BYTE :: VarIntCodec.encode pid) ++ out2, ?_, ?_⟩
        · simp only [compressLoop, hstep, hout2, Option.map_eq_map, Option.map_some]
        · have henc : (VarIntCodec.encode pid).length ≤ maxPointerLen cands :=
            le_maxPointerLen hmem
          have hd_le : (List.drop pat.length (b :: rest)).length ≤ rest.length := by
            simp only [List.length_drop, List.length_cons]
            omega
          have hmul : (1 + maxPointerLen cands) * (List.drop pat.length (b :: rest)).length ≤
              (1 + maxPointerLen cands) * rest.length := Nat.mul_le_mul_left _ hd_le
          have hA : (1 + maxPointerLen cands) * (rest.length + 1) =
              (1 + maxPointerLen cands) * rest.length + (1 + maxPointerLen cands) := by ring
          simp only [List.length_append, List.length_cons]
          omega
      | none =>
        have hrlen : rest.length ≤ f := by
          simp only [List.length_cons] at hlen
          omega
        obtain ⟨out2, hout2, hbound2⟩ := ih rest hrlen
        refine ⟨b :: out2, ?_, ?_⟩
        · simp only [compressLoop, hstep, hout2, Option.map_eq_map, Option.map_some]
        · have hA : (1 + maxPointerLen cands) * (rest.length + 1) =
              (1 + maxPointerLen cands) * rest.length + (1 + maxPointerLen cands) := by ring
          simp only [List.length_cons]
          omega

theorem decompressLoop_nil (r : GlobalPatternRegistry) (dfuel : Nat) :
    decompressLoop r dfuel [] = .ok [] := by
  cases dfuel <;> rfl

theorem decompressLoop_compressLoop {r : GlobalPatternRegistry} {cands : List (List Nat × Nat)}
    (hc : ∀ kv ∈ cands, kv.1 ≠ ([] : List Nat) ∧ r.lookup kv.2 = some kv.1) :
    ∀ (fuel : Nat) (data out : List Nat), (∀ b ∈ data, b ≠ ESCAPE_BYTE) →
      compressLoop cands fuel data = some out →
      ∀ dfuel, out.length ≤ dfuel → decompressLoop r dfuel out = .ok data := by
  intro fuel
  induction fuel with
  | zero =>
    intro data out hb hout dfuel hdf
    cases data with
    | nil =>
      have hout2 : some ([] : List Nat) = some out := hout
      injection hout2 with h2
      subst h2
      exact decompressLoop_nil r dfuel
    | cons b rest => exact absurd hout (by simp [compressLoop])
  | succ f ih =>
    intro data out hb hout dfuel hdf
    cases data with
    | nil =>
      have hout2 : some ([] : List Nat) = some out := hout
      injection hout2 with h2
      subst h2
      exact decompressLoop_nil r dfuel
    | cons b rest =>
      cases hstep : compressStep cands (b :: rest) with
      | some pp =>
        obtain ⟨pat, pid⟩ := pp
        obtain ⟨hmem, hpre⟩ := compressStep_spec hstep
        obtain ⟨hne, hlook⟩ := hc (pat, pid) hmem
        simp only [compressLoop, hstep, Option.map_eq_map] at hout
        cases hrec : compressLoop cands f (List.drop pat.length (b :: rest)) with
        | none => rw [hrec] at hout; simp at hout
        | some out2 =>
          rw [hrec] at hout
          simp only [Option.map_some', Option.some.injEq] at hout
          subst hout
          obtain ⟨t, ht⟩ := hpre
          have hdropt : List.drop pat.length (b :: rest) = t := by
            rw [← ht]
            exact List.drop_left pat t
          have hlen1 : 0 < ((ESCAPE_BYTE :: VarIntCodec.encode pid) ++ out2).length := by
            simp
          cases dfuel with
          | zero => omega
          | succ d =>
            have henc := VarIntCodec.decode_encode pid out2
            have hlook2 : r.lookup pid = some pat := hlook
            simp only [List.cons_append, decompressLoop, eq_self_iff_true, if_true,
              List.append_eq, henc, hlook2]
            have hdrop2 : List.drop (VarIntCodec.encode pid).length
                (VarIntCodec.encode pid ++ out2) = out2 :=
              List.drop_left _ _
            rw [hdrop2]
            have hb2 : ∀ x ∈ List.drop pat.length (b :: rest), x ≠ ESCAPE_BYTE := by
              intro x hx
              exact hb x (List.mem_of_mem_drop hx)
            have hdf2 : out2.length ≤ d := by
              have hpos := VarIntCodec.encodeAux_length_pos pid pid
              simp only [List.length_append, List.length_cons] at hdf
              simp only [VarIntCodec.encode] at hpos ⊢
              omega
            rw [ih (List.drop pat.length (b :: rest)) out2 hb2 hrec d hdf2]
            simp only [Except.map_ok, Except.ok.injEq]
            rw [hdropt, ← ht]
      | none =>
        simp only [compressLoop, hstep, Option.map_eq_map] at hout
        cases hrec : compressLoop cands f rest with
        | none => rw [hrec] at hout; simp at hout
        | some out2 =>
          rw [hrec] at hout
          simp only [Option.map_some', Option.some.injEq] at hout
          subst hout
          cases dfuel with
          | zero => simp at hdf
          | succ d =>
            have hbne : b ≠ ESCAPE_BYTE := hb b (List.mem_cons_self _ _)
            simp only [decompressLoop, if_neg hbne]
            have hb2 : ∀ x ∈ rest, x ≠ ESCAPE_BYTE := by
              intro x hx
              exact hb x (List.mem_cons_of_mem _ hx)
            have hdf2 : out2.length ≤ d := by
              simp only [List.length_cons] at hdf
              omega
            rw [ih rest out2 hb2 hrec d hdf2]
            rfl

theorem canonPat_length_aux (pats : List (List Nat)) : ∀ k,
    (canonPat k pats).length = pats.length := by
  induction pats with
  | nil => intro k; simp [canonPat]
  | cons q qs ih => intro k; simp [canonPat, ih (k + 1)]

theorem register_twice (r : GlobalPatternRegistry) (p : List Nat) :
    ((r.register p).2.register p).1 = (r.register p).1 ∧
      ((r.register p).2.register p).2 = (r.register p).2 := by
  cases hl : r.pattern_to_id.lookup p with
  | some pid =>
    simp only [GlobalPatternRegistry.register, hl]
    exact ⟨trivial, trivial⟩
  | none =>
    have hfound := lookup_dictInsert_self p r.next_id r.pattern_to_id
    simp only [GlobalPatternRegistry.register, hl, hfound]
    exact ⟨trivial, trivial⟩

theorem register_count_fresh (r : GlobalPatternRegistry) (p : List Nat)
    (hl : r.pattern_to_id.lookup p = none) :
    ((r.register p).2).count = r.count + 1 ∧ (r.register p).1 = r.next_id := by
  have hfresh := lookup_none_iff.mp hl
  simp only [GlobalPatternRegistry.register, hl, GlobalPatternRegistry.count,
    dictInsert_fresh hfresh]
  simp

/-- C1: the claimed unconditional round-trip
`decompress(compress(data).output, compress(data).metadata) == data`
fails on the code: with an empty registry and the single byte `0xFE`,
compress emits the byte verbatim (no literal escaping exists in the
code), and decompress then misreads it as a pattern pointer and fails
on the truncated identifier instead of returning the original data. -/
theorem c1_roundtrip_fails_on_marker_byte :
    Layer8UltraExtremeMapper.compress testDigest emptyRegistry 1 [ESCAPE_BYTE] =
      some ([ESCAPE_BYTE], c1Meta)
    ∧ Layer8UltraExtremeMapper.decompress testDigest emptyRegistry [ESCAPE_BYTE] c1Meta =
      .error DecompressError.MalformedStream := by
  constructor
  · with_unfolding_all rfl
  · with_unfolding_all rfl

/-- C2: the claimed literal-escape behaviour does not exist in the
code: with an empty registry (so no pattern matches anywhere) and input
`[0xFE, 0x07]`, compress emits the marker byte verbatim rather than as
an escape pair, and decompress then misinterprets it as a pattern
pointer with identifier 7, failing with the unknown-identifier
condition instead of round-tripping. -/
theorem c2_literal_escape_missing :
    Layer8UltraExtremeMapper.compress testDigest emptyRegistry 2 [ESCAPE_BYTE, 7] =
      some ([ESCAPE_BYTE, 7], c2Meta)
    ∧ Layer8UltraExtremeMapper.decompress testDigest emptyRegistry [ESCAPE_BYTE, 7] c2Meta =
      .error DecompressError.NotFound := by
  constructor
  · with_unfolding_all rfl
  · with_unfolding_all rfl

/-- C3, counterexample: with the single pattern `[0x41]` registered
(identifier 0) the one-byte input `[0x41]` compresses to the two bytes
`[0xFE, 0x00]`, exceeding the claimed bound of input length plus one
byte per occurrence of the marker byte (the input contains none). -/
theorem c3_expansion_counterexample :
    (Layer8UltraExtremeMapper.compress testDigest (buildRegistry [[65]]) 1 [65]).map
        (fun x => x.1) = some [ESCAPE_BYTE, 0]
    ∧ ¬ ((2 : Nat) ≤ ([65] : List Nat).length + ([65] : List Nat).count ESCAPE_BYTE) := by
  constructor
  · with_unfolding_all rfl
  · decide

/-- C3 (amended): provided every registered pattern is non-empty,
compress terminates within one loop iteration per input byte and never
fails, and its output length is at most `1 + V` bytes per input byte,
where `V` is the longest varint encoding of a registered identifier
(each rewritten match of length at least one emits the marker byte plus
at most `V` identifier bytes; unmatched bytes are emitted verbatim —
the code adds no escape byte for literal marker-byte occurrences). -/
theorem c3_compress_total_bounded (H : List Nat → List Nat) (r : GlobalPatternRegistry)
    (data : List Nat) (hne : ∀ kv ∈ r.pattern_to_id, kv.1 ≠ ([] : List Nat)) :
    ∃ out meta,
      Layer8UltraExtremeMapper.compress H r data.length data = some (out, meta) ∧
        out.length ≤ (1 + maxPointerLen (sortPatternsDesc r.pattern_to_id)) * data.length := by
  have hne2 : ∀ kv ∈ sortPatternsDesc r.pattern_to_id, kv.1 ≠ ([] : List Nat) :=
    fun kv hkv => hne kv (mem_sortPatternsDesc.mp hkv)
  obtain ⟨out, hout, hbound⟩ := compressLoop_total_bound hne2 data.length data (Nat.le_refl _)
  refine ⟨out,
    { block_id := 0
      original_size := data.length
      compressed_size := out.length
      compression_ratio := if out.length > 0 then (data.length : ℚ) / (out.length : ℚ) else 1
      layers_applied := [CompressionLayer.L8_ULTRA_EXTREME_MAPPING]
      integrity_hash := H data }, ?_, hbound⟩
  simp only [Layer8UltraExtremeMapper.compress, hout, Option.map_some']

/-- Witness for C3 (amended) at a concrete input. -/
theorem c3_compress_total_bounded_witness :
    ∃ out meta,
      Layer8UltraExtremeMapper.compress testDigest (buildRegistry [[65]]) 2 [65, 66] =
        some (out, meta) ∧
        out.length ≤
          (1 + maxPointerLen (sortPatternsDesc (buildRegistry [[65]]).pattern_to_id)) * 2 :=
  c3_compress_total_bounded testDigest (buildRegistry [[65]]) [65, 66] (by decide)

/-- C4: after full reconstruction, a present (non-empty) integrity hash
is always checked: decompress returns successfully only when the
recomputed digest of the reconstructed bytes equals
`metadata.integrity_hash`, and it fails with the `IntegrityError`
condition whenever the digests differ. -/
theorem c4_integrity_gate (H : List Nat → List Nat) (r : GlobalPatternRegistry)
    (data : List Nat) (m : CompressionMetadata) (res : List Nat)
    (hloop : decompressLoop r data.length data = .ok res)
    (hpres : m.integrity_hash ≠ []) :
    (∀ out, Layer8UltraExtremeMapper.decompress H r data m = .ok out →
      H out = m.integrity_hash)
    ∧ (H res ≠ m.integrity_hash →
        Layer8UltraExtremeMapper.decompress H r data m = .error DecompressError.IntegrityError)
    ∧ (H res = m.integrity_hash →
        Layer8UltraExtremeMapper.decompress H r data m = .ok res) := by
  have hgate : Layer8UltraExtremeMapper.decompress H r data m =
      (if H res = m.integrity_hash then .ok res
        else .error DecompressError.IntegrityError) := by
    unfold Layer8UltraExtremeMapper.decompress
    rw [hloop]
    simp only [ne_eq, hpres, not_false_eq_true, if_true, ite_not]
  rw [hgate]
  by_cases hh : H res = m.integrity_hash
  · refine ⟨?_, ?_, ?_⟩
    · intro out hout
      rw [if_pos hh] at hout
      injection hout with h2
      rw [← h2]
      exact hh
    · intro hcon
      exact absurd hh hcon
    · intro _
      exact if_pos hh
  · refine ⟨?_, ?_, ?_⟩
    · intro out hout
      rw [if_neg hh] at hout
      exact absurd hout (by simp)
    · intro _
      exact if_neg hh
    · intro hcon
      exact absurd hcon hh

/-- Witness for C4: decompressing `[1]` against a metadata record whose
integrity hash `[9, 9]` differs from the recomputed digest fails with
the `IntegrityError` condition. -/
theorem c4_integrity_gate_witness :
    Layer8UltraExtremeMapper.decompress testDigest emptyRegistry [1] c4Meta =
      .error DecompressError.IntegrityError :=
  (c4_integrity_gate testDigest emptyRegistry [1] c4Meta [1] (by decide)
    (by decide)).2.1 (by decide)

/-- C5: compress is deterministic (a pure function of the registry
state and the input), the candidate list it scans is sorted so that
longer patterns are tried before shorter ones while keeping exactly the
registered entries, and two registered patterns of equal length that
both match at one position are necessarily the same pattern — so the
equal-length tie can only be broken in favour of that pattern's (least)
identifier. -/
theorem c5_determinism_and_tiebreak (H : List Nat → List Nat) (r : GlobalPatternRegistry)
    (fuel : Nat) (data : List Nat) :
    Layer8UltraExtremeMapper.compress H r fuel data =
      Layer8UltraExtremeMapper.compress H r fuel data
    ∧ (sortPatternsDesc r.pattern_to_id).Pairwise (fun a b => b.1.length ≤ a.1.length)
    ∧ (∀ x : List Nat × Nat, x ∈ sortPatternsDesc r.pattern_to_id ↔ x ∈ r.pattern_to_id)
    ∧ (∀ p1 id1 p2 id2 rem, (p1, id1) ∈ r.pattern_to_id → (p2, id2) ∈ r.pattern_to_id →
        p1 <+: rem → p2 <+: rem → p1.length = p2.length → p1 = p2) := by
  refine ⟨rfl, pairwise_sortPatternsDesc _, fun x => mem_sortPatternsDesc, ?_⟩
  intro p1 id1 p2 id2 rem h1 h2 hp1 hp2 hlen
  obtain ⟨t1, ht1⟩ := hp1
  obtain ⟨t2, ht2⟩ := hp2
  have e1 : rem.take p1.length = p1 := by
    rw [← ht1]
    exact List.take_left p1 t1
  have e2 : rem.take p2.length = p2 := by
    rw [← ht2]
    exact List.take_left p2 t2
  rw [← e1, ← e2, hlen]

/-- Witness for C5 at a concrete registry and scan position. -/
theorem c5_determinism_and_tiebreak_witness :
    ([65] : List Nat) = [65] :=
  (c5_determinism_and_tiebreak testDigest (buildRegistry [[65]]) 1 [65]).2.2.2
    [65] 0 [65] 0 [65, 66] (by decide) (by decide) (by decide) (by decide) (by decide)

/-- C6: `register` is idempotent (the second call returns the same
identifier and leaves the registry unchanged), a fresh pattern grows
the entry count by exactly one and receives the identifier `next_id`,
which on a register-built registry equals the entry count (so
identifiers run 0, 1, 2, ... in registration order), a known pattern
leaves the registry unchanged, and every identifier already recorded is
below `next_id`, so a newly allocated identifier is never a reuse. -/
theorem c6_register_idempotent_sequential (ps : List (List Nat)) (p : List Nat) :
    ((((buildRegistry ps).register p).2).register p).1 = ((buildRegistry ps).register p).1
    ∧ ((((buildRegistry ps).register p).2).register p).2 = ((buildRegistry ps).register p).2
    ∧ ((buildRegistry ps).pattern_to_id.lookup p = none →
        (((buildRegistry ps).register p).2).count = (buildRegistry ps).count + 1
        ∧ ((buildRegistry ps).register p).1 = (buildRegistry ps).next_id
        ∧ (buildRegistry ps).next_id = (buildRegistry ps).count)
    ∧ ((buildRegistry ps).pattern_to_id.lookup p ≠ none →
        (((buildRegistry ps).register p).2) = buildRegistry ps)
    ∧ (∀ q qid, (q, qid) ∈ (buildRegistry ps).pattern_to_id →
        qid < (buildRegistry ps).next_id) := by
  obtain ⟨pats, hs, _⟩ := buildRegistry_shape ps
  obtain ⟨hp, hi, hn, hnd⟩ := hs
  refine ⟨(register_twice _ p).1, (register_twice _ p).2, ?_, ?_, ?_⟩
  · intro hl
    obtain ⟨hcount, hpid⟩ := register_count_fresh _ p hl
    refine ⟨hcount, hpid, ?_⟩
    rw [hn, GlobalPatternRegistry.count, hp, canonPat_length_aux pats 0]
  · intro hl
    cases hlk : (buildRegistry ps).pattern_to_id.lookup p with
    | none => exact absurd hlk hl
    | some pid => simp only [GlobalPatternRegistry.register, hlk]
  · intro q qid hmem
    rw [hp] at hmem
    have := (mem_canonPat hmem).2.2
    rw [hn]
    omega

/-- Witness for C6: registering the fresh pattern `[6]` after `[5]`
grows the count by one and allocates the sequential identifier. -/
theorem c6_register_idempotent_sequential_witness :
    (((buildRegistry [[5]]).register [6]).2).count = (buildRegistry [[5]]).count + 1
    ∧ ((buildRegistry [[5]]).register [6]).1 = (buildRegistry [[5]]).next_id
    ∧ (buildRegistry [[5]]).next_id = (buildRegistry [[5]]).count :=
  (c6_register_idempotent_sequential [[5]] [6]).2.2.1 (by decide)

/-- C7: on a register-built registry whose entry count and pattern
lengths fit the 4-byte fields of the snapshot format, deserializing a
serialized snapshot into a fresh registry reproduces the registry
exactly (both direction maps and the counter), every recorded
identifier stays below the restored next-identifier counter, and a
subsequent `register` of a fresh pattern can never return an identifier
colliding with a recorded one. -/
theorem c7_serialization_roundtrip (ps : List (List Nat))
    (hc : (buildRegistry ps).count < 2 ^ 32)
    (hl : ∀ e ∈ (buildRegistry ps).id_to_pattern, e.2.length < 2 ^ 32) :
    GlobalPatternRegistry.deserialize emptyRegistry ((buildRegistry ps).serialize) =
      .ok (buildRegistry ps)
    ∧ (∀ e ∈ (buildRegistry ps).id_to_pattern, e.1 < (buildRegistry ps).next_id)
    ∧ (∀ q, (buildRegistry ps).pattern_to_id.lookup q = none →
        ∀ e ∈ (buildRegistry ps).id_to_pattern, e.1 ≠ ((buildRegistry ps).register q).1) := by
  obtain ⟨pats, hs, _⟩ := buildRegistry_shape ps
  have hlen : pats.length < 2 ^ 32 := by
    have := hs.1
    rw [GlobalPatternRegistry.count, this, canonPat_length_aux pats 0] at hc
    exact hc
  have hbelow : ∀ e ∈ (buildRegistry ps).id_to_pattern, e.1 < (buildRegistry ps).next_id := by
    intro e he
    rw [hs.2.1] at he
    have := (mem_canonId he).2.2
    rw [hs.2.2.1]
    omega
  refine ⟨deserialize_serialize _ pats hs hlen hl, hbelow, ?_⟩
  intro q hq e he
  have hpid := (register_count_fresh _ q hq).2
  rw [hpid]
  have := hbelow e he
  omega

/-- Witness for C7: a two-pattern registry survives the
serialize/deserialize round trip. -/
theorem c7_serialization_roundtrip_witness :
    GlobalPatternRegistry.deserialize emptyRegistry
        ((buildRegistry [[65, 66], [67]]).serialize) = .ok (buildRegistry [[65, 66], [67]])
    ∧ (∀ e ∈ (buildRegistry [[65, 66], [67]]).id_to_pattern,
        e.1 < (buildRegistry [[65, 66], [67]]).next_id)
    ∧ (∀ q, (buildRegistry [[65, 66], [67]]).pattern_to_id.lookup q = none →
        ∀ e ∈ (buildRegistry [[65, 66], [67]]).id_to_pattern,
          e.1 ≠ ((buildRegistry [[65, 66], [67]]).register q).1) :=
  c7_serialization_roundtrip [[65, 66], [67]] (by decide) (by decide)

/-- C8: the claimed `MalformedRegistry` failure on a stream truncated
inside a pattern body does not happen: the snapshot declaring one
record with identifier 0 and pattern length 2 but providing only one
pattern byte is accepted silently, storing the truncated one-byte
pattern `[0x41]`.  (Only the fixed-size count/identifier/length fields
are guarded, by `struct.error`.) -/
theorem c8_truncated_pattern_stored_silently :
    GlobalPatternRegistry.deserialize emptyRegistry
        [0, 0, 0, 1, 0, 0, 0, 0, 0, 0, 0, 2, 65] =
      .ok { pattern_to_id := [([65], 0)], id_to_pattern := [(0, [65])], next_id := 1 } := by
  decide

/-- C9: the composer runs the codec first and hands its output to the
external pipeline; when the pipeline returns the intermediate bytes
unchanged it returns them with the codec's partial metadata, and
otherwise it returns the pipeline's bytes and metadata with the Layer 8
identifier prepended to `layers_applied` — in both cases with
`original_size` and `integrity_hash` describing the true original
input. -/
theorem c9_compose_metadata (H : List Nat → List Nat)
    (inner : List Nat → List Nat × CompressionMetadata) (r : GlobalPatternRegistry)
    (fuel : Nat) (data l8_out : List Nat) (l8_meta : CompressionMetadata)
    (hc : Layer8UltraExtremeMapper.compress H r fuel data = some (l8_out, l8_meta)) :
    ((inner l8_out).1 = l8_out →
      ExtremeCobolEngine.compress_block H inner r fuel data =
        some (l8_out,
          { l8_meta with original_size := data.length, integrity_hash := H data }))
    ∧ ((inner l8_out).1 ≠ l8_out →
      ExtremeCobolEngine.compress_block H inner r fuel data =
        some ((inner l8_out).1,
          { (inner l8_out).2 with
              layers_applied :=
                CompressionLayer.L8_ULTRA_EXTREME_MAPPING :: (inner l8_out).2.layers_applied
              original_size := data.length
              integrity_hash := H data }))
    ∧ (∀ out meta, ExtremeCobolEngine.compress_block H inner r fuel data = some (out, meta) →
        meta.original_size = data.length ∧ meta.integrity_hash = H data) := by
  have hblock : ExtremeCobolEngine.compress_block H inner r fuel data =
      (if (inner l8_out).1 = l8_out then
        some (l8_out,
          { l8_meta with original_size := data.length, integrity_hash := H data })
      else
        some ((inner l8_out).1,
          { (inner l8_out).2 with
              layers_applied :=
                CompressionLayer.L8_ULTRA_EXTREME_MAPPING :: (inner l8_out).2.layers_applied
              original_size := data.length
              integrity_hash := H data })) := by
    unfold ExtremeCobolEngine.compress_block
    rw [hc]
  rw [hblock]
  by_cases heq : (inner l8_out).1 = l8_out
  · refine ⟨fun _ => if_pos heq, fun hcon => absurd heq hcon, ?_⟩
    intro out meta h
    rw [if_pos heq] at h
    injection h with h2
    injection h2 with ha hb
    rw [← hb]
    exact ⟨rfl, rfl⟩
  · refine ⟨fun hcon => absurd hcon heq, fun _ => if_neg heq, ?_⟩
    intro out meta h
    rw [if_neg heq] at h
    injection h with h2
    injection h2 with ha hb
    rw [← hb]
    exact ⟨rfl, rfl⟩

/-- Witness for C9: with an identity inner pipeline, the composer
returns the codec output with corrected size and digest fields. -/
theorem c9_compose_metadata_witness :
    ExtremeCobolEngine.compress_block testDigest c9InnerW emptyRegistry 1 [3] =
      some ([3], { c9MetaW with original_size := 1, integrity_hash := testDigest [3] }) :=
  (c9_compose_metadata testDigest c9InnerW emptyRegistry 1 [3] [3] c9MetaW
    (by with_unfolding_all rfl)).1 (by decide)

/-- C10: for a registry built by registering non-empty patterns and an
input free of the marker byte `0xFE`, compress succeeds and
decompressing its output with its metadata returns exactly the original
input — the restricted round trip holds even without literal
escaping. -/
theorem c10_roundtrip_no_marker (H : List Nat → List Nat) (ps : List (List Nat))
    (data : List Nat) (hps : ∀ p ∈ ps, p ≠ ([] : List Nat))
    (hdata : ∀ b ∈ data, b ≠ ESCAPE_BYTE) :
    ∃ out meta,
      Layer8UltraExtremeMapper.compress H (buildRegistry ps) data.length data =
        some (out, meta)
      ∧ Layer8UltraExtremeMapper.decompress H (buildRegistry ps) out meta = .ok data := by
  obtain ⟨pats, hs, hmem⟩ := buildRegistry_shape ps
  have hc : ∀ kv ∈ sortPatternsDesc (buildRegistry ps).pattern_to_id,
      kv.1 ≠ ([] : List Nat) ∧ (buildRegistry ps).lookup kv.2 = some kv.1 := by
    intro kv hkv
    have hkv2 : kv ∈ (buildRegistry ps).pattern_to_id := mem_sortPatternsDesc.mp hkv
    rw [hs.1] at hkv2
    constructor
    · exact hps kv.1 (hmem kv.1 (mem_canonPat hkv2).1)
    · have hkv3 : (kv.1, kv.2) ∈ canonPat 0 pats := hkv2
      have hlook := canonId_lookup_of_mem hkv3
      rw [GlobalPatternRegistry.lookup, hs.2.1]
      exact hlook
  obtain ⟨out, hout, _⟩ :=
    compressLoop_total_bound (fun kv hkv => (hc kv hkv).1) data.length data (Nat.le_refl _)
  have hdec : decompressLoop (buildRegistry ps) out.length out = .ok data :=
    decompressLoop_compressLoop hc data.length data out hdata hout out.length (Nat.le_refl _)
  refine ⟨out,
    { block_id := 0
      original_size := data.length
      compressed_size := out.length
      compression_ratio := if out.length > 0 then (data.length : ℚ) / (out.length : ℚ) else 1
      layers_applied := [CompressionLayer.L8_ULTRA_EXTREME_MAPPING]
      integrity_hash := H data }, ?_, ?_⟩
  · simp only [Layer8UltraExtremeMapper.compress, hout, Option.map_some']
  · unfold Layer8UltraExtremeMapper.decompress
    rw [hdec]
    by_cases hh : H data = []
    · simp [hh]
    · simp [hh]

/-- Witness for C10: the pattern `AA` round-trips the input `AAB`. -/
theorem c10_roundtrip_no_marker_witness :
    ∃ out meta,
      Layer8UltraExtremeMapper.compress testDigest (buildRegistry [[65, 65]]) 3 [65, 65, 66] =
        some (out, meta)
      ∧ Layer8UltraExtremeMapper.decompress testDigest (buildRegistry [[65, 65]]) out meta =
        .ok [65, 65, 66] :=
  c10_roundtrip_no_marker testDigest [[65, 65]] [65, 65, 66] (by decide) (by decide)
